import Mathlib

/-!
# Verification of the debate-rankings pipeline

A shallow embedding of the debate ranking program (identity hashing,
match-feed normalization, Glicko-2 period bookkeeping, registration dedup,
and ranking assembly), together with theorems settling the specification
claims against it.

Conventions of the embedding:
* Python strings are Lean `String`s; the character-level operations the
  source uses (`lower`, `strip`, `split("&")`, substring `in`, sort) are
  re-implemented over `List Char` with Python's semantics.
* A pandas cell that may be missing (`NaN`) is an `Option String`; Python's
  `str(...)` rendering of a missing cell is the literal string "nan".
* `hashlib.sha256(s.encode()).hexdigest()` is a full executable SHA-256
  over UTF-8 bytes represented as `Nat`s reduced mod 2^32 / 2^8.
* Rating numbers (mu, phi, sigma) are modelled as `ℚ`; the claims treated
  here concern which updates happen and how rows are ordered, not
  floating-point rounding.
-/

namespace DebateRankings

/-! ## Python string primitives -/

/-- Python `str.lower()` on one character (ASCII range, which is all the
source ever feeds it). -/
def pyLowerChar (c : Char) : Char :=
  if 65 ≤ c.toNat ∧ c.toNat ≤ 90 then Char.ofNat (c.toNat + 32) else c

/-- Python `str.lower()`. -/
def pyLower (s : String) : String :=
  String.mk (s.data.map pyLowerChar)

/-- `startsWithL needle hay`: `needle` is an initial segment of `hay`. -/
def startsWithL : List Char → List Char → Bool
  | [], _ => true
  | _ :: _, [] => false
  | a :: as, b :: bs => a == b && startsWithL as bs

/-- Python's substring test `needle in hay` (scans every suffix of `hay`). -/
def containsL : List Char → List Char → Bool
  | [], needle => needle.isEmpty
  | h :: t, needle => startsWithL needle (h :: t) || containsL t needle

/-- Python `needle in hay` on strings. -/
def containsS (hay needle : String) : Bool :=
  containsL hay.data needle.data

/-- The whitespace characters Python `str.strip()` removes (ASCII part). -/
def isPySpace (c : Char) : Bool :=
  c == ' ' || c == '\t' || c == '\n' || c == '\x0d' || c == '\x0b' || c == '\x0c'

/-- Python `str.strip()`: drop leading and trailing whitespace. -/
def pyStrip (l : List Char) : List Char :=
  ((l.dropWhile isPySpace).reverse.dropWhile isPySpace).reverse

/-- Python `s.split("&")` for the one-character separator the source uses:
split at every `'&'`, keeping empty pieces, never collapsing. -/
def splitAmp : List Char → List (List Char)
  | [] => [[]]
  | c :: t =>
    if c == '&' then [] :: splitAmp t
    else
      match splitAmp t with
      | [] => [[c]]
      | g :: gs => (c :: g) :: gs

/-- Python string `<=` (lexicographic on code points). Python's `list.sort`
orders the split name pieces by exactly this relation. -/
def lexLe : List Char → List Char → Bool
  | [], _ => true
  | _ :: _, [] => false
  | a :: as, b :: bs =>
    decide (a.toNat < b.toNat) || (a.toNat == b.toNat && lexLe as bs)

/-- Python `x in xs` for a string and a list of strings. -/
def pyIn (s : String) (xs : List String) : Bool :=
  xs.any (fun x => x == s)

/-- Python `str(cell)` for a pandas cell: a missing value (`NaN`) renders as
the literal string "nan". -/
def render : Option String → String
  | none => "nan"
  | some s => s

/-! ## SHA-256 (`hashlib.sha256(...).hexdigest()`), executable over `Nat` -/

/-- Truncate to a 32-bit word. -/
def w32 (n : Nat) : Nat := n % 4294967296

/-- 32-bit right rotation. -/
def rotr32 (x k : Nat) : Nat :=
  w32 (x / 2 ^ k + x % 2 ^ k * 2 ^ (32 - k))

/-- UTF-8 encoding of a character list (what Python `str.encode()` produces),
as a list of byte values. -/
def utf8Encode : List Char → List Nat
  | [] => []
  | c :: t =>
    let n := c.toNat
    (if n < 128 then [n]
     else if n < 2048 then [192 + n / 64, 128 + n % 64]
     else if n < 65536 then [224 + n / 4096, 128 + n / 64 % 64, 128 + n % 64]
     else [240 + n / 262144, 128 + n / 4096 % 64, 128 + n / 64 % 64, 128 + n % 64])
      ++ utf8Encode t

/-- Big-endian bytes of `n`, `k` bytes wide. -/
def natToBytesBE : Nat → Nat → List Nat
  | 0, _ => []
  | k + 1, n => natToBytesBE k (n / 256) ++ [n % 256]

/-- Big-endian word from a byte list. -/
def bytesToWordBE (bs : List Nat) : Nat :=
  bs.foldl (fun a b => a * 256 + b) 0

/-- SHA-256 message padding: `0x80`, zeros, then the 64-bit big-endian bit
length, to a multiple of 64 bytes. -/
def sha256pad (msg : List Nat) : List Nat :=
  msg ++ [128] ++ List.replicate ((119 - msg.length % 64) % 64) 0
      ++ natToBytesBE 8 (msg.length * 8)

/-- Split into chunks of `64` bytes (input length is a multiple of 64). -/
def chunks64F : Nat → List Nat → List (List Nat)
  | 0, _ => []
  | _, [] => []
  | fuel + 1, l => l.take 64 :: chunks64F fuel (l.drop 64)

/-- Split a byte list into 4-byte groups. -/
def chunks4F : Nat → List Nat → List (List Nat)
  | 0, _ => []
  | _, [] => []
  | fuel + 1, l => l.take 4 :: chunks4F fuel (l.drop 4)

/-- The SHA-256 round constants. -/
def sha256K : List Nat :=
  [1116352408, 1899447441, 3049323471, 3921009573, 961987163, 1508970993,
   2453635748, 2870763221, 3624381080, 310598401, 607225278, 1426881987,
   1925078388, 2162078206, 2614888103, 3248222580, 3835390401, 4022224774,
   264347078, 604807628, 770255983, 1249150122, 1555081692, 1996064986,
   2554220882, 2821834349, 2952996808, 3210313671, 3336571891, 3584528711,
   113926993, 338241895, 666307205, 773529912, 1294757372, 1396182291,
   1695183700, 1986661051, 2177026350, 2456956037, 2730485921, 2820302411,
   3259730800, 3345764771, 3516065817, 3600352804, 4094571909, 275423344,
   430227734, 506948616, 659060556, 883997877, 958139571, 1322822218,
   1537002063, 1747873779, 1955562222, 2024104815, 2227730452, 2361852424,
   2428436474, 2756734187, 3204031479, 3329325298]

/-- The SHA-256 initial hash value. -/
def sha256H0 : List Nat :=
  [1779033703, 3144134277, 1013904242, 2773480762,
   1359893119, 2600822924, 528734635, 1541459225]

/-- σ₀ of the message schedule. -/
def ssig0 (x : Nat) : Nat := Nat.xor (rotr32 x 7) (Nat.xor (rotr32 x 18) (x / 8))

/-- σ₁ of the message schedule. -/
def ssig1 (x : Nat) : Nat := Nat.xor (rotr32 x 17) (Nat.xor (rotr32 x 19) (x / 1024))

/-- Σ₀ of the compression round. -/
def bsig0 (x : Nat) : Nat := Nat.xor (rotr32 x 2) (Nat.xor (rotr32 x 13) (rotr32 x 22))

/-- Σ₁ of the compression round. -/
def bsig1 (x : Nat) : Nat := Nat.xor (rotr32 x 6) (Nat.xor (rotr32 x 11) (rotr32 x 25))

/-- The SHA-256 choice function. -/
def chFn (x y z : Nat) : Nat :=
  Nat.xor (Nat.land x y) (Nat.land (Nat.xor x 4294967295) z)

/-- The SHA-256 majority function. -/
def majFn (x y z : Nat) : Nat :=
  Nat.xor (Nat.land x y) (Nat.xor (Nat.land x z) (Nat.land y z))

/-- Extend the 16 chunk words to 64. The accumulator is kept reversed, so
`acc.getD i` reads `w[t-1-i]`. -/
def extendW : Nat → List Nat → List Nat
  | 0, acc => acc
  | fuel + 1, acc =>
    extendW fuel
      (w32 (ssig1 (acc.getD 1 0) + acc.getD 6 0 + ssig0 (acc.getD 14 0) + acc.getD 15 0)
        :: acc)

/-- One compression round, on the state `[a,b,c,d,e,f,g,h]`. -/
def sha256Round (st : List Nat) (kw : Nat × Nat) : List Nat :=
  match st with
  | [a, b, c, d, e, f, g, h] =>
    let t1 := h + bsig1 e + chFn e f g + kw.1 + kw.2
    let t2 := bsig0 a + majFn a b c
    [w32 (t1 + t2), a, b, c, w32 (d + t1), e, f, g]
  | other => other

/-- Process one 64-byte chunk against the running hash. -/
def sha256Chunk (hsh : List Nat) (chunk : List Nat) : List Nat :=
  let w16 := (chunks4F chunk.length chunk).map bytesToWordBE
  let ws := (extendW 48 w16.reverse).reverse
  let st := (ws.zip sha256K).foldl sha256Round hsh
  List.zipWith (fun x y => w32 (x + y)) hsh st

/-- SHA-256 digest of a byte list, as eight 32-bit words. -/
def sha256Words (msg : List Nat) : List Nat :=
  let padded := sha256pad msg
  (chunks64F padded.length padded).foldl sha256Chunk sha256H0

/-- Lowercase hex character of a nibble. -/
def hexCharOfNibble (n : Nat) : Char :=
  if n % 16 < 10 then Char.ofNat (48 + n % 16) else Char.ofNat (87 + n % 16)

/-- Eight lowercase hex characters of one 32-bit word, big-endian. -/
def word2hex (w : Nat) : List Char :=
  [hexCharOfNibble (w / 268435456), hexCharOfNibble (w / 16777216),
   hexCharOfNibble (w / 1048576), hexCharOfNibble (w / 65536),
   hexCharOfNibble (w / 4096), hexCharOfNibble (w / 256),
   hexCharOfNibble (w / 16), hexCharOfNibble w]

/-- `hashlib.sha256(s.encode()).hexdigest()`: the 64-character lowercase hex
digest of the UTF-8 encoding of `s`. -/
def sha256hex (s : String) : String :=
  String.mk (((sha256Words (utf8Encode s.data)).map word2hex).flatten)

/-! ## Identity resolution (`player_utils.generate_player_id`) -/

/-- `generate_player_id` from `src/player_utils.py`: for the `"hsld"` format
the hash input is `institution ++ full_name`, except that a name in the
multi-team list is hashed alone; any other format splits the name on `"&"`,
strips each piece, sorts the pieces lexicographically, rejoins them and
prefixes the institution. -/
def generate_player_id (institution full_name : String)
    (multi_team_debaters : List String) (format : String) : String :=
  if format == "hsld" then
    if pyIn full_name multi_team_debaters then sha256hex full_name
    else sha256hex (institution ++ full_name)
  else
    let clean_name_arr :=
      List.insertionSort (fun a b => lexLe a b = true)
        ((splitAmp full_name.data).map pyStrip)
    sha256hex (institution ++ String.mk clean_name_arr.flatten)

/-- `generate_player_id` applied to raw pandas cells, keeping Python's
dynamic behaviour for missing (`NaN`) fields: in the `"hsld"` branch a
missing field renders as the string "nan" inside the f-string (and a `NaN`
name is not `in` any list of strings), while in the paired branch
`full_name.split("&")` on a `NaN` float raises an `AttributeError`. -/
def generate_player_id_cells (institution full_name : Option String)
    (multi_team_debaters : List String) (format : String) :
    Except String String :=
  if format == "hsld" then
    let memb := match full_name with
      | some s => pyIn s multi_team_debaters
      | none => false
    if memb then Except.ok (sha256hex (render full_name))
    else Except.ok (sha256hex (render institution ++ render full_name))
  else
    match full_name with
    | none => Except.error "AttributeError: float object has no attribute split"
    | some nm =>
      let clean_name_arr :=
        List.insertionSort (fun a b => lexLe a b = true)
          ((splitAmp nm.data).map pyStrip)
      Except.ok (sha256hex (render institution ++ String.mk clean_name_arr.flatten))

/-! ## Entry tables and code→hash dictionaries -/

/-- One row of a tournament `entries.csv`: Institution, Entry, Code. -/
structure Entry where
  institution : String
  entry : String
  code : String
deriving DecidableEq

/-- An entry row with its computed `hash` column. -/
structure HTeam where
  institution : String
  entry : String
  code : String
  hash : String
deriving DecidableEq

/-- `create_player_hashes`: add the `hash` column to the entry table. -/
def create_player_hashes (teams : List Entry) (multi : List String)
    (format : String) : List HTeam :=
  teams.map fun e =>
    ⟨e.institution, e.entry, e.code,
      generate_player_id e.institution e.entry multi format⟩

/-- Python `dict` assignment `d[k] = v`: overwrite the existing binding of
`k`, else append a new one. -/
def dinsert (d : List (String × String)) (k v : String) :
    List (String × String) :=
  if d.any (fun p => p.1 == k) then
    d.map fun p => if p.1 == k then (k, v) else p
  else d ++ [(k, v)]

/-- Python `dict` lookup as used through `pandas.Series.map`: `none` when
the key is absent. -/
def dlookup : List (String × String) → String → Option String
  | [], _ => none
  | p :: t, key => if p.1 == key then some p.2 else dlookup t key

/-- `create_code_to_hash_dict`: the per-tournament map from entry code to
identity hash. -/
def create_code_to_hash_dict (entries : List Entry) (multi : List String)
    (format : String) : List (String × String) :=
  (create_player_hashes entries multi format).foldl
    (fun d t => dinsert d t.code t.hash) []

/-! ## The match-feed normalizer and rating-period bookkeeping (`run_round`) -/

/-- One row of a round CSV: Aff code, Neg code, Win text; any cell may be
missing. -/
structure RoundRow where
  aff : Option String
  neg : Option String
  win : Option String
deriving DecidableEq

/-- `pandas.Series.map` on one cell: a missing cell stays missing, a present
code is looked up in the dictionary (absent codes become `NaN`). -/
def mapCell (d : List (String × String)) (c : Option String) : Option String :=
  c.bind (dlookup d)

/-- `replace_codes_with_hashes`: map both code columns through the
code→hash dictionary. -/
def replace_codes_with_hashes (d : List (String × String))
    (rows : List RoundRow) : List RoundRow :=
  rows.map fun r => ⟨mapCell d r.aff, mapCell d r.neg, r.win⟩

/-- One Glicko-2 update call `update(winner, loser, timestamp)`. -/
structure Update where
  winner : String
  loser : String
  period : Nat
deriving DecidableEq, Repr

/-- The update calls one iteration of the weight loop makes for one row:
`winner` is the already-lowered outcome text; `"aff" in winner` plays the
first column as winner, `"neg" in winner` plays the second. -/
def rowMatchEvents (a b winner : String) (t : Nat) : List Update :=
  (if containsS winner "aff" then [⟨a, b, t⟩] else [])
    ++ (if containsS winner "neg" then [⟨b, a, t⟩] else [])

/-- The skip test of `run_round`: drop the row when either mapped side
renders with "nan" in it, or either lowered mapped side contains "bye". -/
def shouldSkip (aff_hash neg_hash : String) : Bool :=
  containsS aff_hash "nan" || containsS neg_hash "nan"
    || containsS (pyLower aff_hash) "bye" || containsS (pyLower neg_hash) "bye"

/-- The sequence of Glicko-2 update calls `run_round` makes: codes are
replaced by hashes, every row is rendered through `str(...)`, skipped rows
contribute nothing, and each surviving row's updates are replayed `weight`
times, all at the single round timestamp `c`. -/
def runRoundEvents (d : List (String × String)) (rows : List RoundRow)
    (weight : Nat) (c : Nat) : List Update :=
  ((replace_codes_with_hashes d rows).map fun r =>
      let aff_hash := render r.aff
      let neg_hash := render r.neg
      let winner := pyLower (render r.win)
      if shouldSkip aff_hash neg_hash then []
      else (List.replicate weight (rowMatchEvents aff_hash neg_hash winner c)).flatten
    ).flatten

/-- `run_round`: the update calls of the round plus the counter increment,
which happens once per round regardless of the rows. -/
def run_round (d : List (String × String)) (rows : List RoundRow)
    (weight : Nat) (c : Nat) : List Update × Nat :=
  (runRoundEvents d rows weight c, c + 1)

/-- Processing a list of round files in order, threading the counter, as
`update_from_tournament` does. -/
def processRounds (d : List (String × String)) (files : List (List RoundRow))
    (weight : Nat) (c : Nat) : List Update × Nat :=
  match files with
  | [] => ([], c)
  | f :: fs =>
    let r := run_round d f weight c
    let rest := processRounds d fs weight r.2
    (r.1 ++ rest.1, rest.2)

/-- `determine_weight` from `determine_tournament_weight.py`. -/
def determine_weight (tournament_name : String) (majors : List String) : Nat :=
  if pyIn tournament_name majors then 2 else 1

/-! ## Registration (`parse_debaters_from_tournament`) and the engine state -/

/-- A Rating State `(mu, phi, sigma)`. -/
structure Rating3 where
  mu : ℚ
  phi : ℚ
  sigma : ℚ
deriving DecidableEq

/-- Modelled from the spec: the default Rating State `(μ0, φ0, σ0)` that the
external engine's `add(identity)` registers (the skelo `Glicko2Model` is a
library dependency, not part of this repository). -/
def defaultRating : Rating3 := ⟨1500, 350, 6 / 100⟩

/-- The debaters table plus the engine's identity→Rating-State map.
Modelled from the spec: `add(identity)` appends a fresh default Rating
State for the identity (the engine itself is the external skelo model). -/
structure SysState where
  debaters : List HTeam
  model : List (String × Rating3)
deriving DecidableEq

/-- The hash column of the debaters table. -/
def hashesOf (debaters : List HTeam) : List String :=
  debaters.map (fun t => t.hash)

/-- The registration loop of `parse_debaters_from_tournament`: a row whose
hash is already in the debaters table is skipped entirely; otherwise the row
is appended and `add(hash)` registers a default Rating State. -/
def parse_debaters_from_tournament (teams : List HTeam) (st : SysState) :
    SysState :=
  teams.foldl
    (fun st row =>
      let is_already_in_debaters :=
        if st.debaters.isEmpty then false
        else (hashesOf st.debaters).any (fun h => h == row.hash)
      if is_already_in_debaters then st
      else ⟨st.debaters ++ [row], st.model ++ [(row.hash, defaultRating)]⟩)
    st

/-- A whole run's registrations: each tournament's hashed entry table folded
through `parse_debaters_from_tournament`, starting from the empty state. -/
def processTournaments (tournaments : List (List HTeam)) : SysState :=
  tournaments.foldl (fun st ts => parse_debaters_from_tournament ts st)
    ⟨[], []⟩

/-! ## Ranking assembly (`RankingSystem.generate_rankings`) -/

/-- One row of the rankings table. -/
structure RankRow where
  school : String
  name : String
  adjusted : ℚ
  deviation : ℚ
  matchCount : Int
  rating : ℚ
  hash : String
deriving DecidableEq

/-- The rankings-data row built for one debater: `ratingOf` is the engine's
`get(hash)["rating"]` and `histLenOf` the length of `ratings.get(hash, [])`. -/
def mkRankRow (ratingOf : String → Rating3) (histLenOf : String → Nat)
    (t : HTeam) : RankRow :=
  let r := ratingOf t.hash
  ⟨t.institution, t.entry, r.mu - 2 * r.phi, r.phi,
    (histLenOf t.hash : Int) - 1, r.mu, t.hash⟩

/-- `generate_rankings`: build one row per debater in table order, then
`sort_values(by="Adjusted Rating", ascending=False)` — a sort on the single
adjusted-rating key with no secondary key (stable on the ties, matching
pandas on the small arrays involved). -/
def generate_rankings (debaters : List HTeam) (ratingOf : String → Rating3)
    (histLenOf : String → Nat) : List RankRow :=
  List.insertionSort (fun r s : RankRow => s.adjusted ≤ r.adjusted)
    (debaters.map (mkRankRow ratingOf histLenOf))

/-! ## Auxiliary definitions used by the statements and proofs -/

/-- A lowercase hex character: a decimal digit or `'a'`–`'f'`. Every
character of a `hexdigest` satisfies this. -/
def isHexLower (c : Char) : Bool :=
  (decide (48 ≤ c.toNat) && decide (c.toNat ≤ 57))
    || (decide (97 ≤ c.toNat) && decide (c.toNat ≤ 102))

/-- Apply `f` to the last element of a list. -/
def mapLast (f : List Char → List Char) : List (List Char) → List (List Char)
  | [] => []
  | [g] => [f g]
  | g :: g2 :: gs => g :: mapLast f (g2 :: gs)

/-- Occurrences of one update call in a call sequence. -/
def countU (u : Update) : List Update → Nat
  | [] => 0
  | v :: t => (if v = u then 1 else 0) + countU u t

/-- The update calls one (already code-mapped) row contributes to its round:
nothing when skipped, otherwise the row's per-iteration calls replayed
`w` times. `runRoundEvents` is exactly the per-row concatenation of these. -/
def rowContribution (d : List (String × String)) (r : RoundRow) (w c : Nat) :
    List Update :=
  let aff_hash := render (mapCell d r.aff)
  let neg_hash := render (mapCell d r.neg)
  let winner := pyLower (render r.win)
  if shouldSkip aff_hash neg_hash then []
  else (List.replicate w (rowMatchEvents aff_hash neg_hash winner c)).flatten

/-- A collision of the hex digest function: two distinct strings with the
same digest. Stated as in standard hash-binding developments; no concrete
collision of SHA-256 is known. -/
def ShaCollision : Prop := ∃ a b : String, a ≠ b ∧ sha256hex a = sha256hex b

/-- The identities registered with the engine, in registration order. -/
def modelKeys (m : List (String × Rating3)) : List String :=
  m.map (fun p => p.1)

/-- A concrete identity digest (`sha256hex "GreenhillSmith"`), used as a
dictionary value in concrete check inputs. -/
def digestA : String :=
  "eaf84e245789e09e2401ccf81deb1a916491630e56fc834466968053c7676e58"

/-- A concrete identity digest (`sha256hex "WestwoodJones"`), used as a
dictionary value in concrete check inputs. -/
def digestB : String :=
  "24f16d60d5210272668acb1d76aca1873da759db7d82e37c35ec67f222fa5783"

/-! ## Lemmas: a hex digest contains neither "nan" nor "bye" -/

theorem startsWithL_mem {nd l : List Char} (h : startsWithL nd l = true) :
    ∀ c ∈ nd, c ∈ l := by
  induction nd generalizing l with
  | nil => simp
  | cons a as ih =>
    cases l with
    | nil => simp [startsWithL] at h
    | cons b bs =>
      simp only [startsWithL, Bool.and_eq_true, beq_iff_eq] at h
      intro c hc
      rcases List.mem_cons.mp hc with rfl | hc
      · exact h.1 ▸ List.mem_cons_self _ _
      · exact List.mem_cons_of_mem _ (ih h.2 c hc)

theorem containsL_eq_false {hay nd : List Char} {c : Char} (hc : c ∈ nd)
    (hbad : ∀ x ∈ hay, x ≠ c) : containsL hay nd = false := by
  induction hay with
  | nil =>
    cases nd with
    | nil => cases hc
    | cons _ _ => rfl
  | cons h t ih =>
    rw [containsL, Bool.or_eq_false_iff]
    refine ⟨?_, ih (fun x hx => hbad x (List.mem_cons_of_mem _ hx))⟩
    cases hv : startsWithL nd (h :: t) with
    | false => rfl
    | true => exact absurd rfl (hbad c (startsWithL_mem hv c hc))

theorem hexCharOfNibble_isHex (n : Nat) : isHexLower (hexCharOfNibble n) = true := by
  have hmod : hexCharOfNibble (n % 16) = hexCharOfNibble n := by
    unfold hexCharOfNibble
    have h16 : n % 16 % 16 = n % 16 := by omega
    rw [h16]
  rw [← hmod]
  exact (by decide : ∀ m, m < 16 → isHexLower (hexCharOfNibble m) = true) _
    (Nat.mod_lt _ (by norm_num))

theorem sha256hex_chars (s : String) :
    ∀ c ∈ (sha256hex s).data, isHexLower c = true := by
  intro c hc
  have hm : c ∈ ((sha256Words (utf8Encode s.data)).map word2hex).flatten := hc
  rw [List.mem_flatten] at hm
  obtain ⟨l, hl, hcl⟩ := hm
  rw [List.mem_map] at hl
  obtain ⟨w, _, rfl⟩ := hl
  simp only [word2hex, List.mem_cons, List.not_mem_nil, or_false] at hcl
  rcases hcl with rfl | rfl | rfl | rfl | rfl | rfl | rfl | rfl <;>
    exact hexCharOfNibble_isHex _

theorem pyLowerChar_hex {c : Char} (h : isHexLower c = true) : pyLowerChar c = c := by
  unfold isHexLower at h
  simp only [Bool.or_eq_true, Bool.and_eq_true, decide_eq_true_eq] at h
  unfold pyLowerChar
  rw [if_neg]
  omega

theorem pyLower_of_hex {s : String} (h : ∀ c ∈ s.data, isHexLower c = true) :
    pyLower s = s := by
  unfold pyLower
  have hmap : s.data.map pyLowerChar = s.data := by
    rw [List.map_congr_left (fun c hc => pyLowerChar_hex (h c hc))]
    simp
  rw [hmap]

theorem digest_no_nan (s : String) : containsS (sha256hex s) "nan" = false := by
  refine containsL_eq_false (c := 'n') (by decide) ?_
  intro x hx he
  have hhex := sha256hex_chars s x hx
  rw [he] at hhex
  exact absurd hhex (by decide)

theorem digest_no_bye (s : String) : containsS (sha256hex s) "bye" = false := by
  refine containsL_eq_false (c := 'y') (by decide) ?_
  intro x hx he
  have hhex := sha256hex_chars s x hx
  rw [he] at hhex
  exact absurd hhex (by decide)

theorem shouldSkip_digests (a b : String) :
    shouldSkip (sha256hex a) (sha256hex b) = false := by
  unfold shouldSkip
  rw [pyLower_of_hex (sha256hex_chars a), pyLower_of_hex (sha256hex_chars b),
    digest_no_nan, digest_no_nan, digest_no_bye, digest_no_bye]
  rfl

theorem gpid_is_digest (i n : String) (M : List String) (f : String) :
    ∃ s, generate_player_id i n M f = sha256hex s := by
  unfold generate_player_id
  split
  · split
    · exact ⟨_, rfl⟩
    · exact ⟨_, rfl⟩
  · exact ⟨_, rfl⟩

theorem dlookup_mem {d : List (String × String)} {k v : String}
    (h : dlookup d k = some v) : ∃ p ∈ d, p.2 = v := by
  induction d with
  | nil => simp [dlookup] at h
  | cons p t ih =>
    rw [dlookup] at h
    split at h
    · exact ⟨p, List.mem_cons_self _ _, (Option.some_inj.mp h)⟩
    · obtain ⟨q, hq, hv⟩ := ih h
      exact ⟨q, List.mem_cons_of_mem _ hq, hv⟩

theorem dinsert_forall {P : String → Prop} {d : List (String × String)}
    (hd : ∀ p ∈ d, P p.2) {k v : String} (hv : P v) :
    ∀ p ∈ dinsert d k v, P p.2 := by
  unfold dinsert
  split
  · intro p hp
    rw [List.mem_map] at hp
    obtain ⟨q, hq, rfl⟩ := hp
    split
    · exact hv
    · exact hd q hq
  · intro p hp
    rcases List.mem_append.mp hp with h | h
    · exact hd p h
    · simp only [List.mem_singleton] at h
      exact h ▸ hv

theorem code_dict_vals (entries : List Entry) (M : List String) (f : String) :
    ∀ p ∈ create_code_to_hash_dict entries M f, ∃ s, p.2 = sha256hex s := by
  unfold create_code_to_hash_dict
  have main : ∀ (ts : List HTeam) (d : List (String × String)),
      (∀ p ∈ d, ∃ s, p.2 = sha256hex s) →
      (∀ t ∈ ts, ∃ s, t.hash = sha256hex s) →
      ∀ p ∈ ts.foldl (fun d t => dinsert d t.code t.hash) d,
        ∃ s, p.2 = sha256hex s := by
    intro ts
    induction ts with
    | nil => intro d hd _; exact hd
    | cons t ts ih =>
      intro d hd hts
      simp only [List.foldl_cons]
      exact ih _
        (dinsert_forall (P := fun v => ∃ s, v = sha256hex s) hd
          (hts t (List.mem_cons_self _ _)))
        (fun u hu => hts u (List.mem_cons_of_mem _ hu))
  refine main _ [] (by simp) ?_
  intro t ht
  unfold create_player_hashes at ht
  rw [List.mem_map] at ht
  obtain ⟨e, _, rfl⟩ := ht
  exact gpid_is_digest _ _ _ _

/-- Sanity check of the hash model against the FIPS 180-4 test vector. -/
theorem sha256hex_test_vector :
    sha256hex "abc"
      = "ba7816bf8f01cfea414140de5dae2223b00361a396177a9cb410ff61f20015ad" := by
  rfl

/-! ## Lemmas: the structure of `run_round`'s update-call sequence -/

theorem runRoundEvents_eq (d : List (String × String)) (rows : List RoundRow)
    (w c : Nat) :
    runRoundEvents d rows w c
      = (rows.map (fun r => rowContribution d r w c)).flatten := by
  unfold runRoundEvents replace_codes_with_hashes rowContribution
  rw [List.map_map]
  rfl

theorem mem_flatten_replicate {w : Nat} {ev : List Update} {e : Update}
    (h : e ∈ (List.replicate w ev).flatten) : e ∈ ev := by
  induction w with
  | zero => simp [List.replicate] at h
  | succ n ih =>
    rw [List.replicate_succ, List.flatten_cons] at h
    rcases List.mem_append.mp h with h | h
    · exact h
    · exact ih h

theorem rowMatchEvents_period {a b winner : String} {t : Nat} {e : Update}
    (h : e ∈ rowMatchEvents a b winner t) : e.period = t := by
  unfold rowMatchEvents at h
  rw [List.mem_append] at h
  rcases h with h | h <;> split at h <;>
    simp only [List.mem_singleton, List.not_mem_nil] at h
  · subst h; rfl
  · subst h; rfl

theorem rowContribution_period {d : List (String × String)} {r : RoundRow}
    {w c : Nat} {e : Update} (h : e ∈ rowContribution d r w c) : e.period = c := by
  unfold rowContribution at h
  dsimp only at h
  split at h
  · simp at h
  · exact rowMatchEvents_period (mem_flatten_replicate h)

theorem runRoundEvents_period (d : List (String × String)) (rows : List RoundRow)
    (w c : Nat) : ∀ e ∈ runRoundEvents d rows w c, e.period = c := by
  intro e he
  rw [runRoundEvents_eq, List.mem_flatten] at he
  obtain ⟨l, hl, hel⟩ := he
  rw [List.mem_map] at hl
  obtain ⟨r, _, rfl⟩ := hl
  exact rowContribution_period hel

theorem countU_append (u : Update) (l1 l2 : List Update) :
    countU u (l1 ++ l2) = countU u l1 + countU u l2 := by
  induction l1 with
  | nil => simp [countU]
  | cons v t ih => simp [countU, ih]; omega

theorem countU_flatten_replicate (u : Update) (w : Nat) (ev : List Update) :
    countU u ((List.replicate w ev).flatten) = w * countU u ev := by
  induction w with
  | zero => simp [List.replicate, countU]
  | succ n ih =>
    rw [List.replicate_succ, List.flatten_cons, countU_append, ih]
    ring

theorem countU_rowContribution (u : Update) (d : List (String × String))
    (r : RoundRow) (w c : Nat) :
    countU u (rowContribution d r w c) = w * countU u (rowContribution d r 1 c) := by
  unfold rowContribution
  dsimp only
  split
  · simp [countU]
  · rw [countU_flatten_replicate, countU_flatten_replicate, one_mul]

theorem countU_runRoundEvents (u : Update) (d : List (String × String))
    (rows : List RoundRow) (w c : Nat) :
    countU u (runRoundEvents d rows w c)
      = w * countU u (runRoundEvents d rows 1 c) := by
  rw [runRoundEvents_eq, runRoundEvents_eq]
  induction rows with
  | nil => simp [countU]
  | cons r rows ih =>
    rw [List.map_cons, List.flatten_cons, List.map_cons, List.flatten_cons,
      countU_append, countU_append, ih, countU_rowContribution]
    ring

/-- The literal digest constants are genuine `sha256hex` values. -/
theorem digest_constants_eq :
    digestA = sha256hex "GreenhillSmith" ∧ digestB = sha256hex "WestwoodJones" :=
  ⟨by rfl, by rfl⟩

/-! ## Claim C10 -/

/-- C10: a round-row code that maps successfully through the code→hash
dictionary always maps to a SHA-256 hex digest, which contains neither
"nan" nor (case-insensitively) "bye" as a substring, so the skip filter in
`run_round` never drops a row whose two sides both mapped. -/
theorem claim10_mapped_hashes_pass_filter (entries : List Entry)
    (M : List String) (f : String) (a b ha hb : String)
    (hA : dlookup (create_code_to_hash_dict entries M f) a = some ha)
    (hB : dlookup (create_code_to_hash_dict entries M f) b = some hb) :
    containsS ha "nan" = false ∧ containsS (pyLower ha) "bye" = false
    ∧ containsS hb "nan" = false ∧ containsS (pyLower hb) "bye" = false
    ∧ shouldSkip ha hb = false := by
  obtain ⟨p, hp, hpv⟩ := dlookup_mem hA
  obtain ⟨q, hq, hqv⟩ := dlookup_mem hB
  obtain ⟨s1, hs1⟩ := code_dict_vals entries M f p hp
  obtain ⟨s2, hs2⟩ := code_dict_vals entries M f q hq
  have hha : ha = sha256hex s1 := by rw [← hpv, hs1]
  have hhb : hb = sha256hex s2 := by rw [← hqv, hs2]
  subst hha
  subst hhb
  refine ⟨digest_no_nan s1, ?_, digest_no_nan s2, ?_, shouldSkip_digests s1 s2⟩
  · rw [pyLower_of_hex (sha256hex_chars s1)]
    exact digest_no_bye s1
  · rw [pyLower_of_hex (sha256hex_chars s2)]
    exact digest_no_bye s2

/-- C10 witness: a concrete two-entry tournament whose two codes map to
digests that pass the skip filter. -/
theorem claim10_witness :
    dlookup (create_code_to_hash_dict
        [⟨"Michigan", "Alice Smith", "AS"⟩, ⟨"Texas", "Bob Jones", "BJ"⟩]
        [] "hsld") "AS"
      = some (generate_player_id "Michigan" "Alice Smith" [] "hsld")
    ∧ dlookup (create_code_to_hash_dict
        [⟨"Michigan", "Alice Smith", "AS"⟩, ⟨"Texas", "Bob Jones", "BJ"⟩]
        [] "hsld") "BJ"
      = some (generate_player_id "Texas" "Bob Jones" [] "hsld")
    ∧ shouldSkip (generate_player_id "Michigan" "Alice Smith" [] "hsld")
        (generate_player_id "Texas" "Bob Jones" [] "hsld") = false :=
  ⟨rfl, rfl,
    (claim10_mapped_hashes_pass_filter
      [⟨"Michigan", "Alice Smith", "AS"⟩, ⟨"Texas", "Bob Jones", "BJ"⟩]
      [] "hsld" "AS" "BJ" _ _ rfl rfl).2.2.2.2⟩

/-! ## Claim C2 -/

/-- C2: with weight `w ≥ 1` the round's update-call sequence is the
single-weight sequence with every call's multiplicity scaled by exactly
`w` (the same calls replayed, never a scaled delta), and every repetition
carries the one round timestamp `c`. -/
theorem claim2_weight_replays_batch (d : List (String × String))
    (rows : List RoundRow) (w c : Nat) (hw : 1 ≤ w) :
    (∀ u : Update,
      countU u (runRoundEvents d rows w c)
        = w * countU u (runRoundEvents d rows 1 c))
    ∧ (∀ e ∈ runRoundEvents d rows w c, e.period = c) :=
  ⟨fun u => countU_runRoundEvents u d rows w c, runRoundEvents_period d rows w c⟩

/-- C2 witness: a concrete round replayed with weight 2 makes each call
exactly twice. -/
theorem claim2_witness :
    1 ≤ 2
    ∧ countU ⟨digestA, digestB, 0⟩
        (runRoundEvents [("AS", digestA), ("BJ", digestB)]
          [⟨some "AS", some "BJ", some "Aff"⟩] 2 0)
      = 2 * countU ⟨digestA, digestB, 0⟩
        (runRoundEvents [("AS", digestA), ("BJ", digestB)]
          [⟨some "AS", some "BJ", some "Aff"⟩] 1 0)
    ∧ countU ⟨digestA, digestB, 0⟩
        (runRoundEvents [("AS", digestA), ("BJ", digestB)]
          [⟨some "AS", some "BJ", some "Aff"⟩] 2 0) = 2 :=
  ⟨by decide,
    (claim2_weight_replays_batch [("AS", digestA), ("BJ", digestB)]
      [⟨some "AS", some "BJ", some "Aff"⟩] 2 0 (by decide)).1 _,
    by decide⟩

/-! ## Claim C5 -/

/-- C5: every update call of a round carries the round's single period
index, and the period counter advances by exactly one per round file
processed — for any number of rows, including zero — never per match. -/
theorem claim5_one_period_per_round (d : List (String × String)) :
    (∀ (rows : List RoundRow) (w c : Nat), (run_round d rows w c).2 = c + 1)
    ∧ (∀ (rows : List RoundRow) (w c : Nat),
        ∀ e ∈ (run_round d rows w c).1, e.period = c)
    ∧ (∀ (files : List (List RoundRow)) (w c : Nat),
        (processRounds d files w c).2 = c + files.length) := by
  refine ⟨fun _ _ _ => rfl,
    fun rows w c => runRoundEvents_period d rows w c, ?_⟩
  intro files
  induction files with
  | nil => intro w c; simp [processRounds]
  | cons f fs ih =>
    intro w c
    show (processRounds d fs w (run_round d f w c).2).2 = c + (f :: fs).length
    rw [ih]
    show c + 1 + fs.length = c + (fs.length + 1)
    omega

/-- C5 witness: one concrete round (and one empty one) each advance the
counter by exactly one; the round's call carries the round's period. -/
theorem claim5_witness :
    (run_round [("AS", digestA)] [] 1 5).2 = 6
    ∧ (∀ e ∈ (run_round [("AS", digestA), ("BJ", digestB)]
        [⟨some "AS", some "BJ", some "Aff"⟩] 1 5).1, e.period = 5)
    ∧ (processRounds [("AS", digestA)] [[], [], []] 1 0).2 = 3 :=
  ⟨(claim5_one_period_per_round [("AS", digestA)]).1 [] 1 5,
    (claim5_one_period_per_round [("AS", digestA), ("BJ", digestB)]).2.1 _ 1 5,
    (claim5_one_period_per_round [("AS", digestA)]).2.2 [[], [], []] 1 0⟩

/-! ## Claim C1 -/

/-- C1 counterexample: a row whose outcome text contains both "aff" and
"neg" is not reported and not skipped — `run_round` silently applies it as
a match twice, once in each direction. -/
theorem claim1_counterexample :
    containsS (pyLower (render (some "Aff on a 2-1 (Neg dissent)"))) "aff" = true
    ∧ containsS (pyLower (render (some "Aff on a 2-1 (Neg dissent)"))) "neg" = true
    ∧ runRoundEvents [("AS", digestA), ("BJ", digestB)]
        [⟨some "AS", some "BJ", some "Aff on a 2-1 (Neg dissent)"⟩] 1 0
      = [⟨digestA, digestB, 0⟩, ⟨digestB, digestA, 0⟩] :=
  ⟨by decide, by decide, by decide⟩

/-- C1 amended: a row whose outcome text contains neither "aff" nor "neg"
contributes no update call and no report (it is skipped silently); a row
containing both contributes one call in each direction — there is no
`AmbiguousOutcome` condition anywhere on the path. -/
theorem claim1_amended_silent_ambiguity (a b winner : String) (t : Nat) :
    (containsS winner "aff" = false → containsS winner "neg" = false →
      rowMatchEvents a b winner t = [])
    ∧ (containsS winner "aff" = true → containsS winner "neg" = true →
      rowMatchEvents a b winner t = [⟨a, b, t⟩, ⟨b, a, t⟩]) := by
  constructor <;> intro h1 h2 <;> simp [rowMatchEvents, h1, h2]

/-- C1 amended witness: both branches at concrete outcome texts. -/
theorem claim1_amended_witness :
    rowMatchEvents digestA digestB (pyLower "Draw") 0 = []
    ∧ rowMatchEvents digestA digestB (pyLower "Aff over Neg") 0
        = [⟨digestA, digestB, 0⟩, ⟨digestB, digestA, 0⟩] :=
  ⟨(claim1_amended_silent_ambiguity digestA digestB (pyLower "Draw") 0).1
      (by decide) (by decide),
    (claim1_amended_silent_ambiguity digestA digestB (pyLower "Aff over Neg") 0).2
      (by decide) (by decide)⟩

/-! ## Claim C8 -/

/-- C8 counterexample: the "bye" check runs on the *mapped* value, not the
raw code — a raw code containing "bye" that is present in the map (here
the realistic team code "Byers AB") is not dropped: the row emits a Match
Record. -/
theorem claim8_counterexample :
    containsS (pyLower "Byers AB") "bye" = true
    ∧ runRoundEvents
        (create_code_to_hash_dict
          [⟨"Greenhill", "Smith", "Byers AB"⟩, ⟨"Westwood", "Jones", "Miller CD"⟩]
          [] "hsld")
        [⟨some "Byers AB", some "Miller CD", some "Aff"⟩] 1 0
      = [⟨sha256hex "GreenhillSmith", sha256hex "WestwoodJones", 0⟩] :=
  ⟨by decide, by rfl⟩

/-- C8 amended: a row either of whose sides fails to map (which includes a
textually absent cell and the usual unregistered bye marker), or whose
*mapped* value case-insensitively contains "bye", is silently dropped: it
emits nothing, raises nothing, and the remaining rows are processed
unchanged. -/
theorem claim8_amended_dropped_rows (d : List (String × String))
    (r : RoundRow) (w c : Nat)
    (h : mapCell d r.aff = none ∨ mapCell d r.neg = none
      ∨ containsS (pyLower (render (mapCell d r.aff))) "bye" = true
      ∨ containsS (pyLower (render (mapCell d r.neg))) "bye" = true) :
    ∀ rest : List RoundRow,
      runRoundEvents d (r :: rest) w c = runRoundEvents d rest w c := by
  intro rest
  rw [runRoundEvents_eq, runRoundEvents_eq, List.map_cons, List.flatten_cons]
  have hskip : shouldSkip (render (mapCell d r.aff)) (render (mapCell d r.neg))
      = true := by
    unfold shouldSkip
    rcases h with h | h | h | h <;> rw [h] <;>
      simp [render, (by decide : containsS "nan" "nan" = true)]
  have hrow : rowContribution d r w c = [] := by
    unfold rowContribution
    dsimp only
    rw [hskip]
    rfl
  rw [hrow, List.nil_append]

/-- C8 amended witness: a row whose code is absent from the map is dropped
and the rest of the round is unaffected. -/
theorem claim8_amended_witness :
    mapCell [] (some "Bye") = none
    ∧ runRoundEvents [] [⟨some "Bye", some "X", some "Aff"⟩] 1 0
        = runRoundEvents [] [] 1 0
    ∧ runRoundEvents [] [] 1 0 = [] :=
  ⟨rfl,
    claim8_amended_dropped_rows [] ⟨some "Bye", some "X", some "Aff"⟩ 1 0
      (Or.inl rfl) [],
    rfl⟩

/-! ## Claim C9 -/

/-- C9 counterexample: resolving an entry whose affiliation field is
missing does not fail — in the single-competitor format the missing field
renders as "nan" and an identity is produced, with no `MalformedEntry` (or
any other) error. -/
theorem claim9_counterexample :
    generate_player_id_cells none (some "Alice Smith") [] "hsld"
      = Except.ok (generate_player_id "nan" "Alice Smith" [] "hsld") := by
  rfl

/-- C9 amended: identity resolution never validates its fields. In the
single-competitor format every entry — missing fields included — resolves
to an identity (missing fields hash as the text "nan"); in the paired
format a missing name raises Python's untyped `AttributeError`; with both
fields present the cell-level resolver agrees with `generate_player_id`.
No `MalformedEntry` error exists anywhere. -/
theorem claim9_amended_no_validation :
    (∀ (inst nm : Option String) (M : List String),
      (generate_player_id_cells inst nm M "hsld").isOk = true)
    ∧ (∀ (inst : Option String) (M : List String),
      generate_player_id_cells inst none M "cpd"
        = Except.error "AttributeError: float object has no attribute split")
    ∧ (∀ (i n : String) (M : List String) (f : String),
      generate_player_id_cells (some i) (some n) M f
        = Except.ok (generate_player_id i n M f)) := by
  refine ⟨?_, fun _ _ => rfl, ?_⟩
  · intro inst nm M
    cases nm with
    | none => rfl
    | some s =>
      by_cases hm : pyIn s M = true <;>
        simp [generate_player_id_cells, hm, Except.isOk, Except.toBool]
  · intro i n M f
    unfold generate_player_id_cells generate_player_id
    by_cases hf : (f == "hsld") = true <;> simp only [hf, if_true, if_false]
    · by_cases hm : pyIn n M = true <;>
        simp only [render, hm, if_true, if_false] <;> rfl
    · rfl

/-! ## Lemmas: the Python lexicographic order on split name pieces -/

theorem charToNat_inj {a b : Char} (h : a.toNat = b.toNat) : a = b := by
  have h2 := congrArg Char.ofNat h
  rwa [Char.ofNat_toNat, Char.ofNat_toNat] at h2

theorem lexLe_total : ∀ a b : List Char, lexLe a b = true ∨ lexLe b a = true
  | [], _ => Or.inl rfl
  | _ :: _, [] => Or.inr rfl
  | a :: as, b :: bs => by
    rcases Nat.lt_trichotomy a.toNat b.toNat with h | h | h
    · left; simp [lexLe, h]
    · rcases lexLe_total as bs with ih | ih
      · left; simp [lexLe, h, ih]
      · right; simp [lexLe, h.symm, ih]
    · right; simp [lexLe, h]

theorem lexLe_trans :
    ∀ a b c : List Char, lexLe a b = true → lexLe b c = true → lexLe a c = true
  | [], _, _ => fun _ _ => rfl
  | _ :: _, [], _ => by intro h _; simp [lexLe] at h
  | _ :: _, _ :: _, [] => by intro _ h; simp [lexLe] at h
  | a :: as, b :: bs, c :: cs => by
    intro h1 h2
    simp only [lexLe, Bool.or_eq_true, Bool.and_eq_true, decide_eq_true_eq,
      beq_iff_eq] at h1 h2 ⊢
    rcases h1 with h1 | ⟨he1, hr1⟩
    · rcases h2 with h2 | ⟨he2, hr2⟩
      · left; omega
      · left; omega
    · rcases h2 with h2 | ⟨he2, hr2⟩
      · left; omega
      · right; exact ⟨by omega, lexLe_trans as bs cs hr1 hr2⟩

theorem lexLe_antisymm :
    ∀ a b : List Char, lexLe a b = true → lexLe b a = true → a = b
  | [], [] => fun _ _ => rfl
  | [], _ :: _ => by intro _ h; simp [lexLe] at h
  | _ :: _, [] => by intro h _; simp [lexLe] at h
  | a :: as, b :: bs => by
    intro h1 h2
    simp only [lexLe, Bool.or_eq_true, Bool.and_eq_true, decide_eq_true_eq,
      beq_iff_eq] at h1 h2
    have hab : a.toNat = b.toNat := by
      rcases h1 with h | ⟨h, _⟩ <;> rcases h2 with h' | ⟨h', _⟩ <;> omega
    have hr1 : lexLe as bs = true := by
      rcases h1 with h | ⟨_, h⟩
      · omega
      · exact h
    have hr2 : lexLe bs as = true := by
      rcases h2 with h | ⟨_, h⟩
      · omega
      · exact h
    rw [charToNat_inj hab, lexLe_antisymm as bs hr1 hr2]

/-- Any two permuted inputs have the same Python-sorted output: the sort
relation is a total antisymmetric order on the split pieces. -/
theorem insertionSort_lexLe_eq_of_perm {l1 l2 : List (List Char)}
    (h : l1.Perm l2) :
    List.insertionSort (fun a b => lexLe a b = true) l1
      = List.insertionSort (fun a b => lexLe a b = true) l2 := by
  haveI : IsTotal (List Char) (fun a b => lexLe a b = true) := ⟨lexLe_total⟩
  haveI : IsTrans (List Char) (fun a b => lexLe a b = true) :=
    ⟨fun a b c => lexLe_trans a b c⟩
  haveI : IsAntisymm (List Char) (fun a b => lexLe a b = true) :=
    ⟨fun a b => lexLe_antisymm a b⟩
  exact List.eq_of_perm_of_sorted
    ((List.perm_insertionSort _ l1).trans
      (h.trans (List.perm_insertionSort _ l2).symm))
    (List.sorted_insertionSort _ l1) (List.sorted_insertionSort _ l2)

/-! ## Lemmas: splitting on "&" and stripping whitespace -/

theorem splitAmp_ne_nil : ∀ l : List Char, splitAmp l ≠ []
  | [] => by simp [splitAmp]
  | c :: t => by
    unfold splitAmp
    split
    · simp
    · split
      · simp
      · simp

theorem splitAmp_append_amp (xs ys : List Char) :
    splitAmp (xs ++ '&' :: ys) = splitAmp xs ++ splitAmp ys := by
  induction xs with
  | nil => simp [splitAmp]
  | cons c t ih =>
    simp only [List.cons_append, splitAmp, List.append_eq]
    by_cases hc : (c == '&') = true
    · rw [if_pos hc, if_pos hc, ih]
      rfl
    · rw [if_neg hc, if_neg hc, ih]
      cases hsp : splitAmp t with
      | nil => exact absurd hsp (splitAmp_ne_nil t)
      | cons g gs => rfl

theorem splitAmp_append_nonamp (xs : List Char) (c : Char)
    (hc : (c == '&') = false) :
    splitAmp (xs ++ [c]) = mapLast (fun g => g ++ [c]) (splitAmp xs) := by
  induction xs with
  | nil => simp [splitAmp, hc, mapLast]
  | cons x t ih =>
    simp only [List.cons_append, splitAmp, List.append_eq]
    by_cases hx : (x == '&') = true
    · rw [if_pos hx, if_pos hx, ih]
      cases hsp : splitAmp t with
      | nil => exact absurd hsp (splitAmp_ne_nil t)
      | cons g gs => rfl
    · rw [if_neg hx, if_neg hx, ih]
      cases hsp : splitAmp t with
      | nil => exact absurd hsp (splitAmp_ne_nil t)
      | cons g gs =>
        cases gs with
        | nil => rfl
        | cons g2 gs2 => rfl

theorem pyStrip_cons_space (g : List Char) : pyStrip (' ' :: g) = pyStrip g := by
  unfold pyStrip
  rw [List.dropWhile_cons_of_pos]
  rfl

theorem pyStrip_append_space (g : List Char) : pyStrip (g ++ [' ']) = pyStrip g := by
  unfold pyStrip
  rw [List.dropWhile_append]
  split
  · rename_i hemp
    rw [show List.dropWhile isPySpace [' '] = [] from rfl]
    rw [List.isEmpty_iff] at hemp
    rw [hemp]
  · rw [List.reverse_append, List.reverse_singleton, List.singleton_append,
      List.dropWhile_cons_of_pos (by rfl)]

theorem map_pyStrip_mapLast :
    ∀ gs : List (List Char),
      (mapLast (fun g => g ++ [' ']) gs).map pyStrip = gs.map pyStrip
  | [] => rfl
  | [g] => by simp [mapLast, pyStrip_append_space]
  | g :: g2 :: gs => by
    simp only [mapLast, List.map_cons]
    rw [show (mapLast (fun g => g ++ [' ']) (g2 :: gs)).map pyStrip
        = (g2 :: gs).map pyStrip from map_pyStrip_mapLast (g2 :: gs)]
    simp

/-- The stripped pieces of the partnership string "X & Y" are the stripped
pieces of X followed by the stripped pieces of Y. -/
theorem stripped_pieces_append (xd yd : List Char) :
    (splitAmp (xd ++ (' ' :: '&' :: ' ' :: yd))).map pyStrip
      = (splitAmp xd).map pyStrip ++ (splitAmp yd).map pyStrip := by
  have hshape : xd ++ (' ' :: '&' :: ' ' :: yd)
      = (xd ++ [' ']) ++ '&' :: (' ' :: yd) := by
    rw [List.append_assoc]
    rfl
  rw [hshape, splitAmp_append_amp, List.map_append]
  congr 1
  · rw [splitAmp_append_nonamp xd ' ' (by rfl), map_pyStrip_mapLast]
  · cases hsp : splitAmp yd with
    | nil => exact absurd hsp (splitAmp_ne_nil yd)
    | cons g gs =>
      have hsp2 : splitAmp (' ' :: yd) = (' ' :: g) :: gs := by
        simp only [splitAmp]
        rw [if_neg (by decide), hsp]
      rw [hsp2, List.map_cons, List.map_cons, pyStrip_cons_space]

/-! ## Claim C3 -/

/-- C3: in the paired format, the identity of the registration "X & Y"
equals the identity of "Y & X" under the same affiliation — the name is
split on "&", each piece whitespace-stripped, the pieces sorted
lexicographically, rejoined, and hashed together with the affiliation. -/
theorem claim3_partnership_order_independent (A X Y : String) (M : List String)
    (fmt : String) (h : (fmt == "hsld") = false) :
    generate_player_id A (X ++ " & " ++ Y) M fmt
      = generate_player_id A (Y ++ " & " ++ X) M fmt := by
  unfold generate_player_id
  rw [if_neg (by simp [h]), if_neg (by simp [h])]
  have hdata : ∀ U V : String,
      (U ++ " & " ++ V).data = U.data ++ (' ' :: '&' :: ' ' :: V.data) := by
    intro U V
    rw [String.data_append, String.data_append]
    rw [List.append_assoc]
    rfl
  have hperm :
      ((splitAmp (X ++ " & " ++ Y).data).map pyStrip).Perm
        ((splitAmp (Y ++ " & " ++ X).data).map pyStrip) := by
    rw [hdata, hdata, stripped_pieces_append, stripped_pieces_append]
    exact List.perm_append_comm
  rw [insertionSort_lexLe_eq_of_perm hperm]

/-- C3 witness: a concrete partnership in the paired ("cpd") format. -/
theorem claim3_witness :
    ("cpd" == "hsld") = false
    ∧ generate_player_id "Harvard" ("Alice" ++ " & " ++ "Bob") [] "cpd"
        = generate_player_id "Harvard" ("Bob" ++ " & " ++ "Alice") [] "cpd" :=
  ⟨by decide,
    claim3_partnership_order_independent "Harvard" "Alice" "Bob" [] "cpd"
      (by decide)⟩

/-! ## Claim C4 -/

theorem string_append_right_ne {a1 a2 nm : String} (h : a1 ≠ a2) :
    a1 ++ nm ≠ a2 ++ nm := by
  intro he
  apply h
  have hd : a1.data ++ nm.data = a2.data ++ nm.data := by
    rw [← String.data_append, ← String.data_append, he]
  have hd2 : a1.data = a2.data := List.append_cancel_right hd
  cases a1
  cases a2
  exact congrArg String.mk hd2

/-- C4: in the single-competitor format, a name in the multi-team set
resolves identically under any two affiliations (the hash is of the name
alone); a name not in the set is hashed as `affiliation ++ name`, and under
two distinct affiliations the identities differ — equality of the two
digests would exhibit a SHA-256 collision, since the hashed strings are
provably distinct. -/
theorem claim4_multi_team_merge (M : List String) (a1 a2 nm : String) :
    (pyIn nm M = true →
      generate_player_id a1 nm M "hsld" = generate_player_id a2 nm M "hsld")
    ∧ (pyIn nm M = false →
      generate_player_id a1 nm M "hsld" = sha256hex (a1 ++ nm)
      ∧ (a1 ≠ a2 →
        generate_player_id a1 nm M "hsld" ≠ generate_player_id a2 nm M "hsld"
          ∨ ShaCollision)) := by
  constructor
  · intro hm
    unfold generate_player_id
    simp [hm]
  · intro hm
    have h1 : generate_player_id a1 nm M "hsld" = sha256hex (a1 ++ nm) := by
      unfold generate_player_id
      simp [hm]
    have h2 : generate_player_id a2 nm M "hsld" = sha256hex (a2 ++ nm) := by
      unfold generate_player_id
      simp [hm]
    refine ⟨h1, fun hne => ?_⟩
    by_cases heq : generate_player_id a1 nm M "hsld"
        = generate_player_id a2 nm M "hsld"
    · right
      refine ⟨a1 ++ nm, a2 ++ nm, string_append_right_ne hne, ?_⟩
      rw [← h1, ← h2, heq]
    · left
      exact heq

/-- C4 witness: the configured multi-team name resolves identically under
two schools; an ordinary name hashes affiliation ++ name, and its two
identities under distinct schools are (concretely) different digests. -/
theorem claim4_witness :
    pyIn "Tilak Datta Iyer" ["Tilak Datta Iyer"] = true
    ∧ generate_player_id "Strake" "Tilak Datta Iyer" ["Tilak Datta Iyer"] "hsld"
        = generate_player_id "Jesuit" "Tilak Datta Iyer" ["Tilak Datta Iyer"] "hsld"
    ∧ pyIn "Alice" ["Tilak Datta Iyer"] = false
    ∧ generate_player_id "Strake" "Alice" ["Tilak Datta Iyer"] "hsld"
        = sha256hex ("Strake" ++ "Alice")
    ∧ generate_player_id "Strake" "Alice" ["Tilak Datta Iyer"] "hsld"
        ≠ generate_player_id "Jesuit" "Alice" ["Tilak Datta Iyer"] "hsld" :=
  ⟨by decide,
    (claim4_multi_team_merge ["Tilak Datta Iyer"] "Strake" "Jesuit"
      "Tilak Datta Iyer").1 (by decide),
    by decide,
    ((claim4_multi_team_merge ["Tilak Datta Iyer"] "Strake" "Jesuit" "Alice").2
      (by decide)).1,
    by decide⟩

/-! ## Lemmas: the registration loop -/

theorem lookup_append_single_ne {m : List (String × Rating3)} {h k : String}
    {v : Rating3} (hne : h ≠ k) :
    List.lookup h (m ++ [(k, v)]) = List.lookup h m := by
  induction m with
  | nil =>
    have hb : (h == k) = false := beq_eq_false_iff_ne.mpr hne
    simp [List.lookup, hb]
  | cons p t ihm =>
    cases p with
    | mk k2 v2 =>
      rw [List.cons_append]
      by_cases hp : (h == k2) = true
      · simp [List.lookup, hp]
      · simp [List.lookup, hp, ihm]

theorem already_false_not_mem {st : SysState} {row : HTeam}
    (h : (if st.debaters.isEmpty then false
        else (hashesOf st.debaters).any (fun x => x == row.hash)) = false) :
    row.hash ∉ hashesOf st.debaters := by
  intro hmem
  split at h
  · rename_i hemp
    rw [List.isEmpty_iff] at hemp
    rw [hemp] at hmem
    simp [hashesOf] at hmem
  · rw [List.any_eq_false] at h
    exact absurd (by simp) (h _ hmem)

theorem parse_preserves (teams : List HTeam) :
    ∀ st : SysState,
      (modelKeys st.model).Nodup →
      (∀ k ∈ modelKeys st.model, k ∈ hashesOf st.debaters) →
      (modelKeys (parse_debaters_from_tournament teams st).model).Nodup
      ∧ (∀ k ∈ modelKeys (parse_debaters_from_tournament teams st).model,
          k ∈ hashesOf (parse_debaters_from_tournament teams st).debaters)
      ∧ (∀ h ∈ hashesOf st.debaters,
          h ∈ hashesOf (parse_debaters_from_tournament teams st).debaters)
      ∧ (∀ h ∈ hashesOf st.debaters,
          List.lookup h (parse_debaters_from_tournament teams st).model
            = List.lookup h st.model) := by
  induction teams with
  | nil => exact fun st h1 h2 => ⟨h1, h2, fun _ hh => hh, fun _ _ => rfl⟩
  | cons row teams ih =>
    intro st h1 h2
    by_cases halready : (if st.debaters.isEmpty then false
        else (hashesOf st.debaters).any (fun x => x == row.hash)) = true
    · have hstep : parse_debaters_from_tournament (row :: teams) st
          = parse_debaters_from_tournament teams st := by
        unfold parse_debaters_from_tournament
        rw [List.foldl_cons]
        dsimp only
        rw [if_pos halready]
      rw [hstep]
      exact ih st h1 h2
    · rw [Bool.not_eq_true] at halready
      have hnotmem := already_false_not_mem halready
      have hstep : parse_debaters_from_tournament (row :: teams) st
          = parse_debaters_from_tournament teams
              ⟨st.debaters ++ [row], st.model ++ [(row.hash, defaultRating)]⟩ := by
        unfold parse_debaters_from_tournament
        rw [List.foldl_cons]
        dsimp only
        rw [if_neg (by rw [halready]; exact Bool.false_ne_true)]
      have hkeys : modelKeys (st.model ++ [(row.hash, defaultRating)])
          = modelKeys st.model ++ [row.hash] := by
        simp [modelKeys]
      have hhashes : hashesOf (st.debaters ++ [row])
          = hashesOf st.debaters ++ [row.hash] := by
        simp [hashesOf]
      have hknotin : row.hash ∉ modelKeys st.model := fun hk =>
        hnotmem (h2 _ hk)
      have h1' : (modelKeys (st.model ++ [(row.hash, defaultRating)])).Nodup := by
        rw [hkeys]
        simp [List.nodup_append, h1, hknotin]
      have h2' : ∀ k ∈ modelKeys (st.model ++ [(row.hash, defaultRating)]),
          k ∈ hashesOf (st.debaters ++ [row]) := by
        intro k hk
        rw [hkeys] at hk
        rw [hhashes]
        rcases List.mem_append.mp hk with hk | hk
        · exact List.mem_append_left _ (h2 _ hk)
        · exact List.mem_append_right _ hk
      obtain ⟨n1, n2, mono2, look2⟩ :=
        ih ⟨st.debaters ++ [row], st.model ++ [(row.hash, defaultRating)]⟩ h1' h2'
      rw [← hstep] at n1 n2 mono2 look2
      refine ⟨n1, n2, ?_, ?_⟩
      · intro h hh
        exact mono2 h (by rw [hhashes] at *; exact List.mem_append_left _ hh)
      · intro h hh
        have hne : h ≠ row.hash := fun he => hnotmem (he ▸ hh)
        rw [look2 h (by rw [hhashes]; exact List.mem_append_left _ hh)]
        exact lookup_append_single_ne hne

/-! ## Claim C7 -/

/-- C7: once an identity is present in the debaters table, further entry
rows resolving to it are skipped entirely — `add` is not called again and
the identity's existing Rating State is untouched — and across a whole
run's tournaments every identity is registered with the engine at most
once (the engine's key list stays duplicate-free). -/
theorem claim7_register_at_most_once (teams : List HTeam) (st : SysState)
    (hnd : (modelKeys st.model).Nodup)
    (hsub : ∀ k ∈ modelKeys st.model, k ∈ hashesOf st.debaters) :
    (∀ h ∈ hashesOf st.debaters,
      List.lookup h (parse_debaters_from_tournament teams st).model
        = List.lookup h st.model)
    ∧ (modelKeys (parse_debaters_from_tournament teams st).model).Nodup
    ∧ (∀ ts : List (List HTeam),
        (modelKeys (processTournaments ts).model).Nodup) := by
  obtain ⟨n1, _, _, lk⟩ := parse_preserves teams st hnd hsub
  refine ⟨lk, n1, ?_⟩
  have main : ∀ (ts : List (List HTeam)) (st0 : SysState),
      (modelKeys st0.model).Nodup →
      (∀ k ∈ modelKeys st0.model, k ∈ hashesOf st0.debaters) →
      (modelKeys
        ((ts.foldl (fun s t => parse_debaters_from_tournament t s) st0)).model).Nodup := by
    intro ts
    induction ts with
    | nil => exact fun st0 a _ => a
    | cons t ts iht =>
      intro st0 a b
      rw [List.foldl_cons]
      obtain ⟨a1, b1, _, _⟩ := parse_preserves t st0 a b
      exact iht _ a1 b1
  intro ts
  exact main ts ⟨[], []⟩ (by simp [modelKeys]) (by simp [modelKeys])

/-- C7 witness: a state already holding identity "h1"; re-processing an
entry with the same hash leaves the registered Rating State untouched. -/
theorem claim7_witness :
    (modelKeys [("h1", defaultRating)]).Nodup
    ∧ (∀ k ∈ modelKeys [("h1", defaultRating)],
        k ∈ hashesOf [(⟨"I", "N", "C", "h1"⟩ : HTeam)])
    ∧ List.lookup "h1"
        (parse_debaters_from_tournament [⟨"I", "N", "C", "h1"⟩]
          ⟨[⟨"I", "N", "C", "h1"⟩], [("h1", defaultRating)]⟩).model
      = List.lookup "h1"
        (⟨[⟨"I", "N", "C", "h1"⟩], [("h1", defaultRating)]⟩ : SysState).model :=
  ⟨by decide, by decide,
    (claim7_register_at_most_once [⟨"I", "N", "C", "h1"⟩]
      ⟨[⟨"I", "N", "C", "h1"⟩], [("h1", defaultRating)]⟩
      (by decide) (by decide)).1 "h1" (by decide)⟩

/-! ## Claim C6 -/

/-- C6 counterexample: two debaters with equal adjusted ratings. The
assembled order follows the debaters-table order, not the identity order
("zzz" stays ahead of "aaa"), and permuting the input rows permutes the
output — the sort has no identity tie-break and is not input-order
independent. -/
theorem claim6_counterexample :
    generate_rankings
        [⟨"S1", "N1", "C1", "zzz"⟩, ⟨"S2", "N2", "C2", "aaa"⟩]
        (fun _ => ⟨1500, 350, 0⟩) (fun _ => 1)
      ≠ generate_rankings
        [⟨"S2", "N2", "C2", "aaa"⟩, ⟨"S1", "N1", "C1", "zzz"⟩]
        (fun _ => ⟨1500, 350, 0⟩) (fun _ => 1)
    ∧ (generate_rankings
        [⟨"S1", "N1", "C1", "zzz"⟩, ⟨"S2", "N2", "C2", "aaa"⟩]
        (fun _ => ⟨1500, 350, 0⟩) (fun _ => 1)).map (fun r => r.hash)
      = ["zzz", "aaa"] := by
  have e1 : generate_rankings
      [⟨"S1", "N1", "C1", "zzz"⟩, ⟨"S2", "N2", "C2", "aaa"⟩]
      (fun _ => ⟨1500, 350, 0⟩) (fun _ => 1)
      = [mkRankRow (fun _ => ⟨1500, 350, 0⟩) (fun _ => 1) ⟨"S1", "N1", "C1", "zzz"⟩,
         mkRankRow (fun _ => ⟨1500, 350, 0⟩) (fun _ => 1) ⟨"S2", "N2", "C2", "aaa"⟩] := by
    unfold generate_rankings
    simp only [List.map_cons, List.map_nil, List.insertionSort]
    exact List.orderedInsert_of_le _ _ (le_refl _)
  have e2 : generate_rankings
      [⟨"S2", "N2", "C2", "aaa"⟩, ⟨"S1", "N1", "C1", "zzz"⟩]
      (fun _ => ⟨1500, 350, 0⟩) (fun _ => 1)
      = [mkRankRow (fun _ => ⟨1500, 350, 0⟩) (fun _ => 1) ⟨"S2", "N2", "C2", "aaa"⟩,
         mkRankRow (fun _ => ⟨1500, 350, 0⟩) (fun _ => 1) ⟨"S1", "N1", "C1", "zzz"⟩] := by
    unfold generate_rankings
    simp only [List.map_cons, List.map_nil, List.insertionSort]
    exact List.orderedInsert_of_le _ _ (le_refl _)
  constructor
  · intro h
    rw [e1, e2] at h
    have hh := congrArg (fun l => l.map (fun r : RankRow => r.hash)) h
    have hh2 : (["zzz", "aaa"] : List String) = ["aaa", "zzz"] := hh
    simp at hh2
  · rw [e1]
    rfl

/-- C6 amended: the assembled ranking lists every registered competitor
exactly once with `adjusted_rating = mu - 2 * phi`, sorted in descending
order of adjusted rating; equal adjusted ratings are *not* tie-broken by
identity — they keep their debaters-table order, so the order of tied rows
follows the input row order. -/
theorem claim6_amended_ranking_assembly (debaters : List HTeam)
    (ratingOf : String → Rating3) (histLenOf : String → Nat) :
    (generate_rankings debaters ratingOf histLenOf).Perm
        (debaters.map (mkRankRow ratingOf histLenOf))
    ∧ (generate_rankings debaters ratingOf histLenOf).Sorted
        (fun r s => s.adjusted ≤ r.adjusted)
    ∧ (∀ r ∈ generate_rankings debaters ratingOf histLenOf,
        r.adjusted = (ratingOf r.hash).mu - 2 * (ratingOf r.hash).phi) := by
  haveI : IsTotal RankRow (fun r s : RankRow => s.adjusted ≤ r.adjusted) :=
    ⟨fun a b => le_total b.adjusted a.adjusted⟩
  haveI : IsTrans RankRow (fun r s : RankRow => s.adjusted ≤ r.adjusted) :=
    ⟨fun _ _ _ h1 h2 => le_trans h2 h1⟩
  refine ⟨List.perm_insertionSort _ _, List.sorted_insertionSort _ _, ?_⟩
  intro r hr
  have hmem : r ∈ debaters.map (mkRankRow ratingOf histLenOf) :=
    (List.perm_insertionSort _ _).mem_iff.mp hr
  rw [List.mem_map] at hmem
  obtain ⟨t, _, rfl⟩ := hmem
  rfl

/-- C6 amended witness: a one-row table evaluated concretely; the row's
adjusted rating is its mu minus twice its phi. -/
theorem claim6_amended_witness :
    generate_rankings [⟨"S1", "N1", "C1", "h1"⟩]
        (fun _ => ⟨1500, 350, 0⟩) (fun _ => 3)
      = [mkRankRow (fun _ => (⟨1500, 350, 0⟩ : Rating3)) (fun _ => 3)
          (⟨"S1", "N1", "C1", "h1"⟩ : HTeam)]
    ∧ (mkRankRow (fun _ => (⟨1500, 350, 0⟩ : Rating3)) (fun _ => 3)
        (⟨"S1", "N1", "C1", "h1"⟩ : HTeam)).adjusted
      = ((fun _ => (⟨1500, 350, 0⟩ : Rating3))
          (mkRankRow (fun _ => (⟨1500, 350, 0⟩ : Rating3)) (fun _ => 3)
            (⟨"S1", "N1", "C1", "h1"⟩ : HTeam)).hash).mu
        - 2 * ((fun _ => (⟨1500, 350, 0⟩ : Rating3))
          (mkRankRow (fun _ => (⟨1500, 350, 0⟩ : Rating3)) (fun _ => 3)
            (⟨"S1", "N1", "C1", "h1"⟩ : HTeam)).hash).phi :=
  ⟨rfl,
    (claim6_amended_ranking_assembly [⟨"S1", "N1", "C1", "h1"⟩]
      (fun _ => ⟨1500, 350, 0⟩) (fun _ => 3)).2.2 _
      (by
        rw [show generate_rankings [(⟨"S1", "N1", "C1", "h1"⟩ : HTeam)]
            (fun _ => ⟨1500, 350, 0⟩) (fun _ => 3)
          = [mkRankRow (fun _ => (⟨1500, 350, 0⟩ : Rating3)) (fun _ => 3)
              (⟨"S1", "N1", "C1", "h1"⟩ : HTeam)] from rfl]
        exact List.mem_singleton_self _)⟩

end DebateRankings
